import Mathlib

/-!
Shallow embedding of the `line` CLI tool (line-rs): the selector model
(`src/line_selector.rs`), the forward line reader (`src/line_reader.rs`) and
the two-pass orchestration in `main` (`src/main.rs`).

Conventions:
* a file is a `List Nat` of bytes; the newline byte is `10`;
* Rust `usize` is modelled as `Nat`; where the source can underflow a `usize`
  subtraction we model the Rust debug-build behaviour (a panic) as an explicit
  error value (`RunError.usizeUnderflow`), and note the release-build wrapping
  behaviour where it matters;
* fallible Rust code returning `anyhow::Result` is modelled with `Except`.
-/

set_option maxHeartbeats 1000000

deriving instance DecidableEq for Except

/-- The newline byte `b'\n'`. -/
def nlByte : Nat := 10

/-- Split a byte stream into physical lines, each line keeping its
terminating newline byte; a final chunk without a newline is its own line,
and an empty stream has no lines.  This is the reference notion of
"physical line" used to specify the reader (`BufRead::read_until(b'\n')`
chunking). -/
def splitLines : List Nat → List (List Nat)
  | [] => []
  | b :: bs =>
    if b = nlByte then [nlByte] :: splitLines bs
    else
      match splitLines bs with
      | [] => [[b]]
      | l :: ls => (b :: l) :: ls

/-- Model of `BufRead::read_until(b'\n', buf)` on a byte stream: returns the
bytes consumed (up to and including the first newline, or to EOF) and the
rest of the stream. -/
def readUntilNl : List Nat → List Nat × List Nat
  | [] => ([], [])
  | b :: bs =>
    if b = nlByte then ([nlByte], bs)
    else
      let (c, r) := readUntilNl bs
      (b :: c, r)

/-- Model of the line-counting loop in `main` (src/main.rs lines 47-58):
`while reader.skip_until(b'\n')? > 0 { n_lines += 1 }`.  Structural fuel is
the stream length; each successful `skip_until` consumes at least one byte. -/
def countLinesAux : Nat → List Nat → Nat
  | 0, _ => 0
  | fuel + 1, bs =>
    let (c, r) := readUntilNl bs
    if c.isEmpty then 0 else countLinesAux fuel r + 1

/-- Number of lines counted by the `skip_until` loop over a whole stream. -/
def countLines (bs : List Nat) : Nat := countLinesAux bs.length bs

/-- Errors of the run.  User-facing `anyhow` errors keep their data
(`outOfRange` carries the offending value and `n_lines`, as the source
message "Line {num} is out of range (input has only {n_lines} line(s))"
does); `usizeUnderflow` and `keyMissing` model panics (debug-build arithmetic
underflow, `HashMap` indexing with an absent key); `divByZero` models the
panic of a `usize` division by zero; `unreachableState` models
`unreachable!()`/`expect` paths; `fuelOut` is an artefact of bounding loops
by fuel and is never produced for the fuel bounds used. -/
inductive RunError where
  | emptyToken
  | notANumber (s : List Char)
  | zeroNotAllowed
  | outOfRange (v : Int) (nLines : Nat)
  | startMoreThanEnd
  | startLessThanEnd
  | binaryFile
  | usizeUnderflow
  | keyMissing
  | divByZero
  | unreachableState
  | fuelOut
  deriving DecidableEq, Repr

/-- `RawLineSelector` (src/line_selector.rs lines 139-148): a selector as
parsed from user input, one-based, unvalidated. -/
inductive RawLineSelector where
  | Single (n : Int)
  | Range (start? : Option Int) (end? : Option Int)
  | RangeWithStep (start? : Option Int) (end? : Option Int) (step? : Option Int)
  deriving DecidableEq, Repr

/-- `ParsedLineSelector` (src/line_selector.rs lines 5-17): zero-based,
validated against the file's line count.  `Range s e st` has inclusive
bounds; e.g. `Range 1 5 2` is lines 1, 3, 5 and `Range 8 2 (-3)` is
lines 8, 5, 2. -/
inductive ParsedLineSelector where
  | Single (line : Nat)
  | Range (start : Nat) (stop : Nat) (step : Int)
  deriving DecidableEq, Repr

/-- Is an ASCII decimal digit? -/
def isDigitCh (c : Char) : Bool := 48 ≤ c.toNat && c.toNat ≤ 57

/-- ASCII whitespace recognised by our model of `str::trim`. -/
def isWsp (c : Char) : Bool := c = ' ' || c = '\t' || c = '\n' || c = '\r'

/-- Model of `str::trim` on a character list. -/
def trimChars (cs : List Char) : List Char :=
  ((cs.dropWhile isWsp).reverse.dropWhile isWsp).reverse

/-- Numeric value of a digit list, most significant first
(`isize::from_str`'s accumulation). -/
def natOfDigits (ds : List Char) : Nat :=
  ds.foldl (fun acc c => acc * 10 + (c.toNat - 48)) 0

/-- The decimal digit character for `d < 10` (used by the `Display` model). -/
def digitCh (d : Nat) : Char :=
  match d with
  | 0 => '0' | 1 => '1' | 2 => '2' | 3 => '3' | 4 => '4'
  | 5 => '5' | 6 => '6' | 7 => '7' | 8 => '8' | _ => '9'

/-- Decimal digits of `n`, most significant first; fuel-bounded structural
recursion (`n + 1` fuel always suffices). -/
def natReprAux : Nat → Nat → List Char
  | 0, _ => []
  | fuel + 1, n =>
    if n < 10 then [digitCh n]
    else natReprAux fuel (n / 10) ++ [digitCh (n % 10)]

/-- Decimal representation of a natural number. -/
def natRepr (n : Nat) : List Char := natReprAux (n + 1) n

/-- Decimal representation of an integer, as `Display` for `isize` renders
it: a `-` sign for negative values, no `+` sign. -/
def intRepr (v : Int) : List Char :=
  if v < 0 then '-' :: natRepr v.natAbs else natRepr v.natAbs

/-- Model of `str::parse::<isize>()`: optional `+`/`-` sign, then one or
more ASCII digits, and the value must fit in `isize`
(`-(2^63) ≤ v ≤ 2^63 - 1`); anything else is `none`. -/
def parseIsize (cs : List Char) : Option Int :=
  match cs with
  | [] => none
  | c :: rest =>
    let (neg, digits) :=
      if c = '-' then (true, rest)
      else if c = '+' then (false, rest)
      else (false, cs)
    if digits.isEmpty then none
    else if digits.all isDigitCh then
      let m := natOfDigits digits
      if neg then
        if m ≤ 2 ^ 63 then some (-(m : Int)) else none
      else
        if m ≤ 2 ^ 63 - 1 then some (m : Int) else none
    else none

/-- The `parse` closure inside `RawLineSelector::from_str`
(src/line_selector.rs lines 164-178): an empty sub-part is an unbounded
position (`none`); otherwise it must parse as a signed integer and must not
be zero. -/
def parseNumPart (cs : List Char) : Except RunError (Option Int) :=
  if cs.isEmpty then .ok none
  else
    match parseIsize cs with
    | none => .error (.notANumber cs)
    | some v => if v = 0 then .error .zeroNotAllowed else .ok (some v)

/-- First split at a colon: `some (before, after)` if a `':'` occurs. -/
def splitFirstColon : List Char → Option (List Char × List Char)
  | [] => none
  | c :: rest =>
    if c = ':' then some ([], rest)
    else
      match splitFirstColon rest with
      | none => none
      | some (a, b) => some (c :: a, b)

/-- Model of `s.splitn(3, ':')` collected into a list of 1 to 3 parts (the
third part keeps any further colons). -/
def splitn3 (cs : List Char) : List (List Char) :=
  match splitFirstColon cs with
  | none => [cs]
  | some (a, rest) =>
    match splitFirstColon rest with
    | none => [a, rest]
    | some (b, rest2) => [a, b, rest2]

/-- `RawLineSelector::from_str` (src/line_selector.rs lines 158-199) on a
character list: trim, reject the empty token, split on at most two colons,
and parse each sub-part. -/
def RawLineSelector.fromStrChars (cs : List Char) : Except RunError RawLineSelector :=
  let s := trimChars cs
  if s.isEmpty then .error .emptyToken
  else
    match splitn3 s with
    | [t] =>
      match parseNumPart t with
      | .error e => .error e
      | .ok (some v) => .ok (.Single v)
      | .ok none => .error .unreachableState
    | [a, b] => do
      let s1 ← parseNumPart a
      let e1 ← parseNumPart b
      .ok (.Range s1 e1)
    | [a, b, c] => do
      let s1 ← parseNumPart a
      let e1 ← parseNumPart b
      let st ← parseNumPart c
      .ok (.RangeWithStep s1 e1 st)
    | _ => .error .unreachableState

/-- `RawLineSelector::from_str` on a `String`. -/
def RawLineSelector.fromStr (s : String) : Except RunError RawLineSelector :=
  RawLineSelector.fromStrChars s.data

/-- Bytes of a (ASCII) string, for writing concrete files and outputs. -/
def strBytes (s : String) : List Nat := s.data.map Char.toNat

/-- The `to_positive_one_based` closure inside `ParsedLineSelector::from_raw`
(src/line_selector.rs lines 39-51): check the magnitude against `n_lines`,
then convert a negative one-based `num` to `n_lines - |num|` and a positive
one to `num - 1`.  For `num = 0` (never produced by the parser) the source
computes `0usize - 1`, an underflow. -/
def toPositiveOneBased (num : Int) (nLines : Nat) : Except RunError Nat :=
  if num.natAbs > nLines then .error (.outOfRange num nLines)
  else if num < 0 then .ok (nLines - num.natAbs)
  else if num.toNat = 0 then .error .usizeUnderflow
  else .ok (num.toNat - 1)

/-- Checked model of the `usize` expression `n_lines - 1` (the default end
bound of an unbounded range, src/line_selector.rs lines 59 and 75).  It is
evaluated eagerly as the argument of `unwrap_or`, so with `n_lines = 0` it
underflows even when an explicit end bound is present. -/
def usizePred (n : Nat) : Except RunError Nat :=
  if n = 0 then .error .usizeUnderflow else .ok (n - 1)

/-- The bound-resolution of an optional raw start bound:
`start.map(to_positive_one_based).unwrap_or(Ok(0))?`. -/
def resolveStart (start? : Option Int) (nLines : Nat) : Except RunError Nat :=
  match start? with
  | some k => toPositiveOneBased k nLines
  | none => .ok 0

/-- The bound-resolution of an optional raw end bound:
`end.map(to_positive_one_based).unwrap_or(Ok(n_lines - 1))?`, with the
eager evaluation order of the `unwrap_or` argument made explicit. -/
def resolveEnd (end? : Option Int) (nLines : Nat) : Except RunError Nat := do
  let mapped := end?.map (toPositiveOneBased · nLines)
  let dflt ← usizePred nLines
  match mapped with
  | some r => r
  | none => .ok dflt

/-- The step-tightening match in `ParsedLineSelector::from_raw`
(src/line_selector.rs lines 91-105): on equal resolved bounds collapse to
`Single`; otherwise replace the end with the last index of the arithmetic
progression from `start`.  A zero step reaches a `usize` division by zero
(a panic in Rust), modelled as `divByZero`. -/
def tightenRange (s e : Nat) (step : Int) : Except RunError ParsedLineSelector :=
  -- the source matches on `start.cmp(&end)`: Equal / Less / Greater
  if s = e then .ok (.Single s)
  else if s < e then
    let a := step.natAbs
    if a = 0 then .error .divByZero
    else .ok (.Range s (s + (e - s) / a * a) step)
  else
    let a := step.natAbs
    if a = 0 then .error .divByZero
    else .ok (.Range s (s - (s - e) / a * a) step)

/-- `ParsedLineSelector::from_raw` (src/line_selector.rs lines 38-108). -/
def ParsedLineSelector.fromRaw (raw : RawLineSelector) (nLines : Nat) :
    Except RunError ParsedLineSelector := do
  match raw with
  | .Single k =>
    let l ← toPositiveOneBased k nLines
    return .Single l
  | .Range start? end? =>
    let s ← resolveStart start? nLines
    let e ← resolveEnd end? nLines
    if s > e then throw .startMoreThanEnd
    else if s = e then return .Single s
    else return .Range s e 1
  | .RangeWithStep start? end? step? =>
    let s ← resolveStart start? nLines
    let e ← resolveEnd end? nLines
    let step := step?.getD 1
    if 0 < step ∧ s > e then throw .startMoreThanEnd
    else if step < 0 ∧ s < e then throw .startLessThanEnd
    else tightenRange s e step

/-- The rendering of an optional bound inside `Display for RawLineSelector`:
nothing for `None`, the integer's decimal form for `Some`. -/
def optRepr (o : Option Int) : List Char :=
  match o with
  | none => []
  | some v => intRepr v

/-- `Display for RawLineSelector` (src/line_selector.rs lines 202-224),
producing the character list of the formatted selector. -/
def RawLineSelector.display : RawLineSelector → List Char
  | .Single v => intRepr v
  | .Range start? end? =>
    match start?, end? with
    | none, none => [':']
    | none, some e => ':' :: intRepr e
    | some s, none => intRepr s ++ [':']
    | some s, some e => intRepr s ++ ':' :: intRepr e
  | .RangeWithStep start? end? step? =>
    match start?, end?, step? with
    | none, none, none => [':', ':']
    | none, none, some st => ':' :: ':' :: intRepr st
    | none, some e, none => ':' :: intRepr e ++ [':']
    | none, some e, some st => ':' :: intRepr e ++ ':' :: intRepr st
    | some s, none, none => intRepr s ++ [':', ':']
    | some s, none, some st => intRepr s ++ ':' :: ':' :: intRepr st
    | some s, some e, none => intRepr s ++ ':' :: intRepr e ++ [':']
    | some s, some e, some st => intRepr s ++ ':' :: intRepr e ++ ':' :: intRepr st

/-- The sort key of `Ord for ParsedLineSelector`
(src/line_selector.rs lines 111-123): a `Single`'s line, a `Range`'s
`start.min(end)`. -/
def ParsedLineSelector.lowerBound : ParsedLineSelector → Nat
  | .Single n => n
  | .Range s e _ => min s e

/-- Stable insertion by `lowerBound`; models one step of sorting the
selector list.  `main` uses `sort_unstable` with the `Ord` above; the order
of selectors with equal lower bounds is unspecified there, and no theorem
below depends on a tie order. -/
def insertByLower (x : ParsedLineSelector) :
    List ParsedLineSelector → List ParsedLineSelector
  | [] => [x]
  | y :: ys =>
    if y.lowerBound ≤ x.lowerBound then y :: insertByLower x ys
    else x :: y :: ys

/-- The sorted copy of the selector list (src/main.rs lines 74-75). -/
def sortSelectors (l : List ParsedLineSelector) : List ParsedLineSelector :=
  l.foldr insertByLower []

/-- `LineReader` (src/line_reader.rs lines 26-37): the not-yet-consumed byte
stream plus the count of fully consumed lines. -/
structure LineReader where
  stream : List Nat
  currentLine : Nat
  deriving DecidableEq, Repr

/-- `LineReader::read_next_line` (src/line_reader.rs lines 39-45): read up
to and including the next newline (or to EOF); bump `current_line` only if
something was read. -/
def LineReader.readNextLine (r : LineReader) : List Nat × LineReader :=
  let (buf, rest) := readUntilNl r.stream
  if buf.isEmpty then (buf, { r with stream := rest })
  else (buf, { stream := rest, currentLine := r.currentLine + 1 })

/-- `LineReader::skip_lines` (src/line_reader.rs lines 48-55):
`while i < n && skip_until(b'\n') > 0 { i += 1 }`, then advance
`current_line` by the number of successful skips. -/
def LineReader.skipLines (r : LineReader) : Nat → LineReader
  | 0 => r
  | n + 1 =>
    let (c, rest) := readUntilNl r.stream
    if c.isEmpty then r
    else LineReader.skipLines { stream := rest, currentLine := r.currentLine + 1 } n

/-- The `usize` wrapping subtraction `a - b` performed (in a release build)
by `line_num - self.current_line` when the monotonic contract is violated;
for `b ≤ a` it is the exact difference. -/
def wrapSub64 (a b : Nat) : Nat :=
  if b ≤ a then a - b else 2 ^ 64 - (b - a) % 2 ^ 64

/-- `LineReader::read_specific_line` (src/line_reader.rs lines 60-69).
When `line_num < current_line` (the documented undefined-behaviour case)
the skip count wraps around, so the reader simply runs to EOF and the read
returns empty bytes. -/
def LineReader.readSpecificLine (r : LineReader) (lineNum : Nat) :
    List Nat × LineReader :=
  let r' := if lineNum ≠ r.currentLine
    then r.skipLines (wrapSub64 lineNum r.currentLine) else r
  r'.readNextLine

/-- Lookup in the line cache (`HashMap<usize, Vec<u8>>` in the source,
modelled as an association list; only membership and per-key lookup are ever
used, so the representation is interchangeable). -/
def cacheLookup (c : List (Nat × List Nat)) (k : Nat) : Option (List Nat) :=
  match c with
  | [] => none
  | (k', v) :: rest => if k' = k then some v else cacheLookup rest k

/-- State of the cache-filling pass (src/main.rs lines 81-105): the cache,
the reader, and (as instrumentation for the monotonicity analysis) the
sequence of line numbers passed to `read_specific_line`, in call order. -/
structure FillState where
  cache : List (Nat × List Nat)
  reader : LineReader
  reads : List Nat
  deriving DecidableEq, Repr

/-- One cache-entry step: on a vacant entry, read the line and insert it
(`if let Entry::Vacant(entry) = lines.entry(line_num) { ... }`). -/
def fillLine (st : FillState) (n : Nat) : FillState :=
  match cacheLookup st.cache n with
  | some _ => st
  | none =>
    let (buf, r) := st.reader.readSpecificLine n
    { cache := st.cache ++ [(n, buf)], reader := r, reads := st.reads ++ [n] }

/-- The elements of `(a..=b).step_by(s)` for `s > 0` (the iterator used by
the fill pass).  `s = 0` makes `step_by` panic in Rust; it is unreachable
here and modelled as the empty sequence. -/
def stepRange (a b s : Nat) : List Nat :=
  if a > b ∨ s = 0 then []
  else (List.range ((b - a) / s + 1)).map (fun i => a + i * s)

/-- The line numbers a selector visits during the fill pass
(src/main.rs lines 90-95): ascending even for a negative step, since the
source iterates `(upper..=lower).step_by(step.unsigned_abs())` then. -/
def fillLineNums : ParsedLineSelector → List Nat
  | .Single n => [n]
  | .Range lower upper step =>
    if 0 < step then stepRange lower upper step.natAbs
    else stepRange upper lower step.natAbs

/-- Fill the cache for one selector. -/
def fillSelector (st : FillState) (sel : ParsedLineSelector) : FillState :=
  (fillLineNums sel).foldl fillLine st

/-- The whole cache-filling pass over the sorted selector list, starting
from a rewound reader on `file`. -/
def fillAll (file : List Nat) (sorted : List ParsedLineSelector) : FillState :=
  sorted.foldl fillSelector { cache := [], reader := ⟨file, 0⟩, reads := [] }

/-- `lines[&n]` during the output pass: indexing the cache panics when the
key is absent. -/
def emitLookup (cache : List (Nat × List Nat)) (n : Nat) :
    Except RunError (List Nat) :=
  match cacheLookup cache n with
  | some l => .ok l
  | none => .error .keyMissing

/-- The positive-step output walk (src/main.rs lines 119-123):
`while curr <= upper { print_line(&lines[&curr]); curr += abs_step }`.
Fuel-bounded; `upper + 2` fuel suffices for any `absStep ≥ 1`. -/
def posWalk (cache : List (Nat × List Nat)) :
    Nat → Nat → Nat → Nat → Except RunError (List Nat)
  | 0, _, _, _ => .error .fuelOut
  | fuel + 1, curr, upper, absStep =>
    if curr ≤ upper then do
      let l ← emitLookup cache curr
      let rest ← posWalk cache fuel (curr + absStep) upper absStep
      .ok (l ++ rest)
    else .ok []

/-- The negative-step output walk (src/main.rs lines 124-129):
`while curr >= upper { print_line(&lines[&curr]); curr -= abs_step }`, with
`curr : usize`.  After emitting a `curr < absStep` the subtraction
underflows: a panic in a debug build, and in a release build `curr` wraps to
a huge value whose cache lookup then panics.  Both are `usizeUnderflow`
here. -/
def negWalk (cache : List (Nat × List Nat)) :
    Nat → Nat → Nat → Nat → Except RunError (List Nat)
  | 0, _, _, _ => .error .fuelOut
  | fuel + 1, curr, upper, absStep =>
    if curr ≥ upper then do
      let l ← emitLookup cache curr
      if curr < absStep then .error .usizeUnderflow
      else do
        let rest ← negWalk cache fuel (curr - absStep) upper absStep
        .ok (l ++ rest)
    else .ok []

/-- The bytes a selector contributes to stdout during the output pass
(src/main.rs lines 112-131), bar the non-plain header. -/
def emitSelector (cache : List (Nat × List Nat)) :
    ParsedLineSelector → Except RunError (List Nat)
  | .Single n => emitLookup cache n
  | .Range lower upper step =>
    if 0 < step then posWalk cache (upper + 2) lower upper step.natAbs
    else negWalk cache (lower + 2) lower upper step.natAbs

/-- `n_lines` as computed by `main`: with `--allow-binary-files` a single
`skip_until` loop over the whole stream (src/main.rs lines 56-58); without
it, the first `min(128, len)` bytes are counted separately from the rest
(lines 25-58), because the binary sniff buffers them first. -/
def mainNLines (allowBinary : Bool) (file : List Nat) : Nat :=
  if allowBinary then countLines file
  else countLines (file.take 128) + countLines (file.drop 128)

/-- Parse and normalize the selector tokens: `clap`'s value parser applies
`RawLineSelector::from_str` to each token, and `main` (lines 63-72) then
normalizes each against `n_lines`. -/
def parseSelectors (tokens : List String) (nLines : Nat) :
    Except RunError (List ParsedLineSelector) := do
  let raws ← tokens.mapM RawLineSelector.fromStr
  raws.mapM (ParsedLineSelector.fromRaw · nLines)

/-- The fill pass as `main` performs it: parse, normalize, sort, fill
(src/main.rs lines 63-105).  Exposed separately so the read sequence can be
inspected. -/
def mainFillState (allowBinary : Bool) (file : List Nat) (tokens : List String) :
    Except RunError FillState := do
  let parsed ← parseSelectors tokens (mainNLines allowBinary file)
  .ok (fillAll file (sortSelectors parsed))

/-- The sentinel printed for an empty file in non-plain mode
(src/main.rs line 33). -/
def emptyFileSentinel : List Nat := strBytes "--- EMPTY FILE ---\n"

/-- The whole run of `main` (src/main.rs lines 16-135), returning the bytes
written to stdout.  `isBinary` stands for the `content_inspector` collaborator's
verdict on the file's first bytes.  In non-plain mode each selector block is
preceded by `println!("{}", line_selector.original)`; the original selector
(`LineSelector`/`OriginalLineSelector`, whose definition is not among the
sources) is modelled from the spec as displaying the user's token. -/
def runMain (allowBinary plain isBinary : Bool) (file : List Nat)
    (tokens : List String) : Except RunError (List Nat) :=
  -- clap parses every `-n` token before main's body runs
  (tokens.mapM RawLineSelector.fromStr).bind fun raws =>
  -- binary sniff and empty-file early return, both skipped with
  -- --allow-binary-files (src/main.rs lines 23-54)
  if !allowBinary && file.isEmpty then
    .ok (if plain then [] else emptyFileSentinel)
  else if !allowBinary && isBinary then
    .error .binaryFile
  else
    (raws.mapM (ParsedLineSelector.fromRaw · (mainNLines allowBinary file))).bind
      fun parsed =>
    let st := fillAll file (sortSelectors parsed)
    ((tokens.zip parsed).mapM (fun tp =>
        (emitSelector st.cache tp.2).map fun body =>
          if plain then body else strBytes tp.1 ++ [nlByte] ++ body)).map
      fun blocks => blocks.foldr (· ++ ·) []

/-- The normalized-selector invariant exactly as the claim states it
(strict): a `Single` line is in range; a `Range` has a nonzero step,
distinct in-range bounds, and strict ordering matching the step sign.
This follows the claim's words, to be compared with what
`ParsedLineSelector.fromRaw` actually guarantees. -/
def ClaimedNormInvariant (sel : ParsedLineSelector) (nLines : Nat) : Prop :=
  match sel with
  | .Single l => l < nLines
  | .Range s e st =>
    st ≠ 0 ∧ s ≠ e ∧ s < nLines ∧ e < nLines ∧
    (0 < st → s < e) ∧ (st < 0 → e < s)

/-- The invariant `ParsedLineSelector.fromRaw` actually establishes: as the
strict one, but with non-strict ordering and without `start ≠ end` (a
stepped range whose step exceeds the gap tightens to `start = end`). -/
def NormInvariant (sel : ParsedLineSelector) (nLines : Nat) : Prop :=
  match sel with
  | .Single l => l < nLines
  | .Range s e st =>
    st ≠ 0 ∧ s < nLines ∧ e < nLines ∧
    (0 < st → s ≤ e) ∧ (st < 0 → e ≤ s)

/-- A numeric component value that is nonzero and representable as an
`isize` (the type of every `RawLineSelector` component in the source). -/
def IntOkComp (v : Int) : Prop := v ≠ 0 ∧ -(2 ^ 63) ≤ v ∧ v ≤ 2 ^ 63 - 1

/-- All present components of an optional bound satisfy `IntOkComp`. -/
def OptOkComp (o : Option Int) : Prop :=
  match o with
  | none => True
  | some v => IntOkComp v

/-- Every numeric component of a raw selector is nonzero and fits `isize`. -/
def RawComponentsOk (raw : RawLineSelector) : Prop :=
  match raw with
  | .Single v => IntOkComp v
  | .Range a b => OptOkComp a ∧ OptOkComp b
  | .RangeWithStep a b c => OptOkComp a ∧ OptOkComp b ∧ OptOkComp c

/-! ### Basic facts about the line model -/

theorem readUntilNl_append (bs : List Nat) :
    (readUntilNl bs).1 ++ (readUntilNl bs).2 = bs := by
  induction bs with
  | nil => rfl
  | cons b bs ih =>
    by_cases hb : b = nlByte
    · simp [readUntilNl, hb]
    · simp only [readUntilNl, if_neg hb]
      simpa using ih

theorem readUntilNl_fst_ne_nil {bs : List Nat} (h : bs ≠ []) :
    (readUntilNl bs).1 ≠ [] := by
  cases bs with
  | nil => exact absurd rfl h
  | cons b bs =>
    by_cases hb : b = nlByte <;> simp [readUntilNl, hb]

theorem splitLines_eq_nil_iff (bs : List Nat) : splitLines bs = [] ↔ bs = [] := by
  constructor
  · intro h
    cases bs with
    | nil => rfl
    | cons b bs =>
      by_cases hb : b = nlByte
      · simp [splitLines, hb] at h
      · simp only [splitLines, if_neg hb] at h
        rcases hsp : splitLines bs with _ | ⟨l, ls⟩ <;> simp [hsp] at h
  · rintro rfl; rfl

theorem splitLines_cons_eq {bs : List Nat} (h : bs ≠ []) :
    splitLines bs = (readUntilNl bs).1 :: splitLines (readUntilNl bs).2 := by
  induction bs with
  | nil => exact absurd rfl h
  | cons b bs ih =>
    by_cases hb : b = nlByte
    · simp [splitLines, readUntilNl, hb]
    · by_cases hbs : bs = []
      · subst hbs; simp [splitLines, readUntilNl, hb]
      · have hih := ih hbs
        rcases hru : readUntilNl bs with ⟨c, r⟩
        rw [hru] at hih
        simp only [splitLines, readUntilNl, if_neg hb, hru, hih]

theorem splitLines_join (bs : List Nat) :
    (splitLines bs).foldr (· ++ ·) [] = bs := by
  induction bs with
  | nil => rfl
  | cons b bs ih =>
    by_cases hb : b = nlByte
    · simp [splitLines, hb] at ih ⊢
      simpa [hb] using ih
    · simp only [splitLines, if_neg hb]
      rcases hsp : splitLines bs with _ | ⟨l, ls⟩
      · have : bs = [] := (splitLines_eq_nil_iff bs).1 hsp
        simp [this]
      · rw [hsp] at ih
        simpa using ih

theorem countLinesAux_eq {fuel : Nat} : ∀ {bs : List Nat}, bs.length ≤ fuel →
    countLinesAux fuel bs = (splitLines bs).length := by
  induction fuel with
  | zero =>
    intro bs h
    have : bs = [] := List.eq_nil_of_length_eq_zero (Nat.le_zero.1 h)
    subst this; rfl
  | succ fuel ih =>
    intro bs h
    rcases hbs : bs with _ | ⟨b, rest⟩
    · rfl
    · rw [← hbs]
      have hne : bs ≠ [] := by simp [hbs]
      have hfst := readUntilNl_fst_ne_nil hne
      have happ := readUntilNl_append bs
      simp only [countLinesAux, List.isEmpty_iff, if_neg hfst]
      have hlen : (readUntilNl bs).2.length ≤ fuel := by
        have : (readUntilNl bs).1.length + (readUntilNl bs).2.length = bs.length := by
          rw [← List.length_append, happ]
        have h1 : 1 ≤ (readUntilNl bs).1.length :=
          Nat.one_le_iff_ne_zero.2 (by simpa using hfst)
        omega
      rw [ih hlen, splitLines_cons_eq hne]
      simp

theorem countLines_eq (bs : List Nat) : countLines bs = (splitLines bs).length :=
  countLinesAux_eq (Nat.le_refl _)

theorem splitLines_append_length_le (a b : List Nat) :
    (splitLines (a ++ b)).length ≤ (splitLines a).length + (splitLines b).length := by
  induction a with
  | nil => simp
  | cons x a ih =>
    by_cases hx : x = nlByte
    · simp only [List.cons_append, splitLines, if_pos hx, List.length_cons,
        List.append_eq] at ih ⊢
      omega
    · simp only [List.cons_append, splitLines, if_neg hx]
      rcases hsp : splitLines (a ++ b) with _ | ⟨l, ls⟩ <;>
        rcases hspa : splitLines a with _ | ⟨l', ls'⟩
      · simp
      · simp only [List.length_cons, List.length_nil]
        omega
      · have : a = [] := (splitLines_eq_nil_iff a).1 hspa
        subst this
        simp only [List.nil_append] at hsp
        simp [hsp]
      · rw [hsp, hspa] at ih
        simp only [List.length_cons] at ih ⊢
        omega

theorem splitLines_mem_ne_nil {bs : List Nat} {l : List Nat}
    (h : l ∈ splitLines bs) : l ≠ [] := by
  induction bs generalizing l with
  | nil => simp [splitLines] at h
  | cons b bs ih =>
    by_cases hb : b = nlByte
    · simp only [splitLines, if_pos hb, List.mem_cons] at h
      rcases h with rfl | h
      · simp
      · exact ih h
    · simp only [splitLines, if_neg hb] at h
      rcases hsp : splitLines bs with _ | ⟨l', ls'⟩
      · rw [hsp] at h
        simp at h
        simp [h]
      · rw [hsp] at h
        simp only [List.mem_cons] at h
        rcases h with rfl | h
        · simp
        · exact ih (by rw [hsp]; exact List.mem_cons_of_mem _ h)

theorem splitLines_dropLast_newline {bs : List Nat} {l : List Nat}
    (h : l ∈ (splitLines bs).dropLast) : l.getLast? = some nlByte := by
  induction bs generalizing l with
  | nil => simp [splitLines] at h
  | cons b bs ih =>
    by_cases hb : b = nlByte
    · simp only [splitLines, if_pos hb] at h
      rcases hsp : splitLines bs with _ | ⟨l', ls'⟩
      · rw [hsp] at h; simp at h
      · rw [hsp] at h
        rw [List.dropLast_cons_of_ne_nil (by simp)] at h
        rcases List.mem_cons.1 h with rfl | h'
        · simp
        · exact ih (by rw [hsp]; exact h')
    · rcases hsp : splitLines bs with _ | ⟨l', ls'⟩
      · simp only [splitLines, if_neg hb, hsp, List.dropLast_single] at h
        simp at h
      · rcases hls' : ls' with _ | ⟨m, ms⟩
        · simp only [splitLines, if_neg hb, hsp, hls', List.dropLast_single] at h
          simp at h
        · simp only [splitLines, if_neg hb, hsp, hls',
            List.dropLast_cons_of_ne_nil (List.cons_ne_nil m ms)] at h
          rcases List.mem_cons.1 h with rfl | h'
          · -- l = b :: l', and l' is a non-last element of splitLines bs
            have hl' : l' ∈ (splitLines bs).dropLast := by
              rw [hsp, hls',
                List.dropLast_cons_of_ne_nil (List.cons_ne_nil m ms)]
              exact List.mem_cons_self _ _
            have hlast := ih hl'
            have hne : l' ≠ [] := splitLines_mem_ne_nil (by rw [hsp]; simp)
            cases l' with
            | nil => exact absurd rfl hne
            | cons a as => simpa [List.getLast?_cons] using hlast
          · -- l is a non-last element of splitLines bs further along
            have : l ∈ (splitLines bs).dropLast := by
              rw [hsp, hls',
                List.dropLast_cons_of_ne_nil (List.cons_ne_nil m ms)]
              exact List.mem_cons_of_mem _ h'
            exact ih this

theorem foldr_append_ne_nil {L : List (List Nat)} {x : List Nat}
    (hx : x ∈ L) (hne : x ≠ []) : L.foldr (· ++ ·) [] ≠ [] := by
  induction L with
  | nil => simp at hx
  | cons y ys ih =>
    rcases List.mem_cons.1 hx with rfl | hx'
    · simp [hne]
    · simp only [List.foldr_cons]
      intro hcontra
      exact ih hx' (List.append_eq_nil.1 hcontra).2

theorem getLast?_foldr_append {L : List (List Nat)}
    (h : ∀ l ∈ L, l ≠ []) (hL : L ≠ []) :
    (L.foldr (· ++ ·) []).getLast? = (L.getLastD []).getLast? := by
  induction L with
  | nil => exact absurd rfl hL
  | cons x ys ih =>
    rcases hys : ys with _ | ⟨y, ys'⟩
    · simp
    · rw [← hys]
      have hyne : ys ≠ [] := by simp [hys]
      have hrest : ys.foldr (· ++ ·) [] ≠ [] := by
        refine @foldr_append_ne_nil _ y ?_ ?_
        · simp [hys]
        · exact h y (by simp [hys])
      simp only [List.foldr_cons]
      rw [List.getLast?_append_of_ne_nil _ hrest]
      rw [ih (fun l hl => h l (List.mem_cons_of_mem _ hl)) hyne]
      cases ys with
      | nil => exact absurd rfl hyne
      | cons a as => simp [List.getLastD]

theorem splitLines_getLast {bs : List Nat} (h : bs ≠ []) :
    ((splitLines bs).getLastD []).getLast? = bs.getLast? := by
  have hjoin := splitLines_join bs
  have hL : splitLines bs ≠ [] := fun hh => h ((splitLines_eq_nil_iff bs).1 hh)
  have := @getLast?_foldr_append (splitLines bs)
    (fun l hl => splitLines_mem_ne_nil hl) hL
  rw [hjoin] at this
  exact this.symm

/-! ### Reader lemmas -/

theorem skipLines_spec : ∀ (m : Nat) (bs : List Nat) (cur : Nat),
    m ≤ (splitLines bs).length →
    splitLines ((LineReader.skipLines ⟨bs, cur⟩ m).stream) = (splitLines bs).drop m ∧
    (LineReader.skipLines ⟨bs, cur⟩ m).currentLine = cur + m := by
  intro m
  induction m with
  | zero => intro bs cur _; exact ⟨by simp [LineReader.skipLines], by simp [LineReader.skipLines]⟩
  | succ m ih =>
    intro bs cur hm
    have hbs : bs ≠ [] := by
      intro hh
      subst hh
      simp [splitLines] at hm
    have hfst := readUntilNl_fst_ne_nil hbs
    rcases hru : readUntilNl bs with ⟨c, r⟩
    rw [hru] at hfst
    have hstep : LineReader.skipLines ⟨bs, cur⟩ (m + 1) =
        LineReader.skipLines ⟨r, cur + 1⟩ m := by
      simp only [LineReader.skipLines, hru, List.isEmpty_iff, if_neg hfst]
    have hsp := splitLines_cons_eq hbs
    rw [hru] at hsp
    have hlen : m ≤ (splitLines r).length := by
      rw [hsp] at hm
      simpa using hm
    have := ih r (cur + 1) hlen
    rw [hstep]
    refine ⟨?_, ?_⟩
    · rw [this.1, hsp]
      simp
    · rw [this.2]
      omega

theorem readNextLine_spec {bs : List Nat} {cur : Nat} {l : List Nat}
    {ls : List (List Nat)} (h : splitLines bs = l :: ls) :
    (LineReader.readNextLine ⟨bs, cur⟩).1 = l ∧
    splitLines ((LineReader.readNextLine ⟨bs, cur⟩).2).stream = ls ∧
    ((LineReader.readNextLine ⟨bs, cur⟩).2).currentLine = cur + 1 := by
  have hbs : bs ≠ [] := by
    intro hh; subst hh; simp [splitLines] at h
  have hsp := splitLines_cons_eq hbs
  rcases hru : readUntilNl bs with ⟨c, r⟩
  rw [hru] at hsp
  rw [hsp] at h
  obtain ⟨rfl, hls⟩ : c = l ∧ splitLines r = ls := by
    exact ⟨(List.cons.injEq _ _ _ _ ▸ h).1, (List.cons.injEq _ _ _ _ ▸ h).2⟩
  have hcne : c ≠ [] := by
    have := readUntilNl_fst_ne_nil hbs
    rw [hru] at this
    exact this
  refine ⟨?_, ?_, ?_⟩ <;>
    simp only [LineReader.readNextLine, hru, List.isEmpty_iff, if_neg hcne] <;>
    simp [hls]

theorem readSpecificLine_fresh {f : List Nat} {n : Nat}
    (hn : n < (splitLines f).length) :
    (LineReader.readSpecificLine ⟨f, 0⟩ n).1 = (splitLines f).getD n [] := by
  have hdrop : splitLines ((LineReader.skipLines ⟨f, 0⟩ n).stream) =
      (splitLines f).drop n ∧
      (LineReader.skipLines ⟨f, 0⟩ n).currentLine = 0 + n :=
    skipLines_spec n f 0 (Nat.le_of_lt hn)
  have hcons : ∃ l ls, (splitLines f).drop n = l :: ls ∧
      (splitLines f).getD n [] = l := by
    rcases hh : (splitLines f).drop n with _ | ⟨l, ls⟩
    · exfalso
      have := List.drop_eq_nil_iff.1 hh
      omega
    · refine ⟨l, ls, rfl, ?_⟩
      have := List.getD_eq_getElem?_getD (splitLines f) n []
      rw [this]
      have hget : (splitLines f)[n]? = some l := by
        have := List.getElem?_drop (splitLines f) n 0
        simp only [Nat.add_zero] at this
        rw [← this, hh]
        simp
      rw [hget]
      rfl
  rcases hcons with ⟨l, ls, hdl, hgd⟩
  unfold LineReader.readSpecificLine
  by_cases hzero : n = 0
  · subst hzero
    simp only [ne_eq]
    have h0 : (0 ≠ (⟨f, 0⟩ : LineReader).currentLine) = False := by simp
    rw [if_neg (by simp)]
    have hsp0 : splitLines f = l :: ls := by
      simpa using hdl
    rw [(@readNextLine_spec f 0 l ls hsp0).1, hgd]
  · have hcur : (⟨f, 0⟩ : LineReader).currentLine = 0 := rfl
    rw [if_pos (by simp [hcur, hzero])]
    have hwrap : wrapSub64 n (0 : Nat) = n := by
      simp [wrapSub64]
    rw [hcur, hwrap]
    have hread := @readNextLine_spec (LineReader.skipLines ⟨f, 0⟩ n).stream
      (LineReader.skipLines ⟨f, 0⟩ n).currentLine l ls (hdrop.1.trans hdl)
    rw [hgd]
    have : (LineReader.skipLines ⟨f, 0⟩ n) =
        ⟨(LineReader.skipLines ⟨f, 0⟩ n).stream,
         (LineReader.skipLines ⟨f, 0⟩ n).currentLine⟩ := rfl
    rw [this] at hread ⊢
    exact hread.1

/-! ### Claim theorems settled by concrete evaluation -/

/-- C1: the claim says the fill pass reads physical lines in ascending
deduplicated order for every accepted selector list, including lists mixing
stepped ranges with single lines.  It does not: for the 9-line file
`"a\nb\nc\nd\ne\nf\ng\nh\ni"` and selectors `1:9:4,4`, the fill pass issues
`read_specific_line` targets `0, 4, 8, 3` — the final call's target `3` is
below the reader's `current_line` (then `9`), violating the documented
monotonic contract (`line_num - current_line` underflows). -/
theorem c1_fill_reads_not_sorted :
    (mainFillState false (strBytes "a\nb\nc\nd\ne\nf\ng\nh\ni")
        ["1:9:4", "4"]).map FillState.reads = .ok [0, 4, 8, 3] ∧
    ¬ List.Sorted (· ≤ ·) [0, 4, 8, 3] := by
  exact ⟨by decide, by decide⟩

/-- C2: the claim says every distinct requested line is read from the
stream exactly once and emitted as often as requested.  For the 9-line file
`"a\nb\nc\nd\ne\nf\ng\nh\ni"` and the overlapping/duplicate list
`1:9:4,4,4`, the stepped range is filled first (lines 0, 4, 8), after which
the cache-miss for line 3 violates the reader's monotonic contract: the read
returns empty bytes, the cache stores `[]` for line 3 (true content
`"d\n"`), and both emissions of selector `4` print nothing — the whole
output is `"a\ne\ni"`. -/
theorem c2_duplicate_selector_line_lost :
    runMain false true false (strBytes "a\nb\nc\nd\ne\nf\ng\nh\ni")
        ["1:9:4", "4", "4"] = .ok (strBytes "a\ne\ni") ∧
    (mainFillState false (strBytes "a\nb\nc\nd\ne\nf\ng\nh\ni")
        ["1:9:4", "4", "4"]).map (fun st => cacheLookup st.cache 3) =
      .ok (some []) ∧
    (splitLines (strBytes "a\nb\nc\nd\ne\nf\ng\nh\ni")).getD 3 [] =
      strBytes "d\n" := by
  exact ⟨by decide, by decide, by decide⟩

/-- C3 counterexample: for the file `"one\ntwo\nthree"` (no trailing
newline) and selectors `1,1:3,1:1` in plain mode, stdout is not the claimed
`"one\none\ntwo\nthree\none\n"`: the cached line `"three"` carries no
newline, so nothing separates it from the following `"one"`. -/
theorem c3_claimed_output_wrong :
    runMain false true false (strBytes "one\ntwo\nthree") ["1", "1:3", "1:1"]
      ≠ .ok (strBytes "one\none\ntwo\nthree\none\n") := by
  decide

/-- C3 amended: for the file `"one\ntwo\nthree"` (no trailing newline) and
selectors `1,1:3,1:1` in plain mode, stdout is exactly
`"one\none\ntwo\nthreeone\n"` — the emitted copy of `"three"` has no
trailing newline (the spec's own parenthetical note) and runs into the
following `"one\n"`. -/
theorem c3_amended_output :
    runMain false true false (strBytes "one\ntwo\nthree") ["1", "1:3", "1:1"]
      = .ok (strBytes "one\none\ntwo\nthreeone\n") := by
  decide

/-- C4: the claim says a negative-step range's output walk terminates
normally whenever the tightened end is line 0.  It does not: for the file
`"one\ntwo\nthree\n"` and selector `2:1:-1` (normalized `Range 1 0 (-1)`),
the walk `while curr >= upper` with `upper = 0` can never exit; after
emitting line 0 the `usize` decrement `0 - 1` underflows (debug panic; in
release `curr` wraps and the cache index panics).  The repository's own
`negative_step` integration test expects `"two\none\n"` and success. -/
theorem c4_negative_step_underflow :
    runMain false true false (strBytes "one\ntwo\nthree\n") ["2:1:-1"]
      = .error .usizeUnderflow := by
  decide

/-- C5: the claim says an empty file never reaches `n_lines - 1`
normalization under any flag combination, including `--allow-binary-files`.
But the empty-file early return sits inside the `!allow_binary_files`
branch: with the flag, an empty file flows on with `n_lines = 0`, where the
unbounded-range selector `:` evaluates `n_lines - 1` (underflow), and even
the plain selector `1` ends in an out-of-range error rather than the
claimed sentinel/empty-output success.  Without the flag the claimed
behaviour does hold (last two conjuncts). -/
theorem c5_allow_binary_empty_file_underflow :
    runMain true false false [] [":"] = .error .usizeUnderflow ∧
    runMain true true false [] ["1"] = .error (.outOfRange 1 0) ∧
    runMain false false false [] ["1"] = .ok emptyFileSentinel ∧
    runMain false true false [] ["1"] = .ok [] := by
  exact ⟨by decide, by decide, by decide, by decide⟩

/-- C9 counterexample: normalization can succeed with a `Range` whose
start equals its end, contradicting the claim's strict invariant: the raw
selector `1:2:5` against a 2-line file tightens to `Range 0 0 5`. -/
theorem c9_strict_invariant_fails :
    ParsedLineSelector.fromRaw (.RangeWithStep (some 1) (some 2) (some 5)) 2
      = .ok (.Range 0 0 5) ∧
    ¬ ClaimedNormInvariant (.Range 0 0 5) 2 := by
  constructor
  · decide
  · intro h
    exact h.2.1 rfl

/-! ### Normalization arithmetic (C6, C7) -/

theorem exceptBind_ok {α β : Type} (a : α) (f : α → Except RunError β) :
    (Except.ok a >>= f) = f a := rfl

theorem exceptBind_error {α β : Type} (e : RunError) (f : α → Except RunError β) :
    ((Except.error e : Except RunError α) >>= f) = Except.error e := rfl

/-- C6: the one-based-to-zero-based conversion rule.  A zero bound is
rejected by the parser's `parse` closure (before normalization); a bound
whose magnitude exceeds `n_lines` fails with the out-of-range error naming
the value and `n_lines`; otherwise a negative `k` resolves to
`n_lines - |k|` (so `-1` is the last line) and a positive `k` to `k - 1`. -/
theorem c6_signed_bound_conversion (k : Int) (n : Nat) (hn : 1 ≤ n) :
    (k = 0 → parseNumPart (intRepr k) = .error .zeroNotAllowed) ∧
    (k ≠ 0 → k.natAbs > n → toPositiveOneBased k n = .error (.outOfRange k n)) ∧
    (k ≠ 0 → k.natAbs ≤ n →
      toPositiveOneBased k n = .ok (if k < 0 then n - k.natAbs else k.toNat - 1)) := by
  refine ⟨?_, ?_, ?_⟩
  · rintro rfl; decide
  · intro _ hgt
    simp [toPositiveOneBased, hgt]
  · intro hk hle
    have hngt : ¬ k.natAbs > n := not_lt.2 hle
    by_cases hneg : k < 0
    · simp [toPositiveOneBased, hngt, hneg]
    · have hpos : 0 < k := lt_of_le_of_ne (not_lt.1 hneg) (Ne.symm hk)
      have htn : ¬ k.toNat = 0 := by omega
      simp [toPositiveOneBased, hngt, hneg, htn]

theorem c6_signed_bound_conversion_witness :
    (1 : Nat) ≤ 3 ∧
    ((-1 : Int) ≠ 0 → (-1 : Int).natAbs ≤ 3 →
      toPositiveOneBased (-1) 3 =
        .ok (if (-1 : Int) < 0 then 3 - (-1 : Int).natAbs else (-1 : Int).toNat - 1)) :=
  ⟨by decide, (c6_signed_bound_conversion (-1) 3 (by decide)).2.2⟩

/-- C7: step tightening.  For a stepped range whose resolved zero-based
bounds are distinct and ordered according to the step sign, `from_raw`
hands the bounds to the tightening match, which stores the end
`start ± floor(|end - start| / |step|) * |step|` in the direction of
travel; that stored end is congruent to `start` modulo `|step|` and lies
between `start` and the originally resolved end. -/
theorem c7_step_tightening (a b sp : Option Int) (n s e : Nat) (step : Int)
    (hs : resolveStart a n = .ok s) (he : resolveEnd b n = .ok e)
    (hst : sp.getD 1 = step) (hnz : step ≠ 0) (hne : s ≠ e)
    (hpos : 0 < step → s < e) (hneg : step < 0 → e < s) :
    ParsedLineSelector.fromRaw (.RangeWithStep a b sp) n = tightenRange s e step ∧
    (0 < step →
      tightenRange s e step =
        .ok (.Range s (s + (e - s) / step.natAbs * step.natAbs) step) ∧
      s ≤ s + (e - s) / step.natAbs * step.natAbs ∧
      s + (e - s) / step.natAbs * step.natAbs ≤ e ∧
      (s + (e - s) / step.natAbs * step.natAbs) % step.natAbs = s % step.natAbs) ∧
    (step < 0 →
      tightenRange s e step =
        .ok (.Range s (s - (s - e) / step.natAbs * step.natAbs) step) ∧
      e ≤ s - (s - e) / step.natAbs * step.natAbs ∧
      s - (s - e) / step.natAbs * step.natAbs ≤ s ∧
      (s - (s - e) / step.natAbs * step.natAbs) % step.natAbs = s % step.natAbs) := by
  have ha : step.natAbs ≠ 0 := Int.natAbs_ne_zero.2 hnz
  refine ⟨?_, ?_, ?_⟩
  · have h1 : ¬ (0 < step ∧ s > e) := by
      rintro ⟨hp, hgt⟩
      exact absurd (hpos hp) (by omega)
    have h2 : ¬ (step < 0 ∧ s < e) := by
      rintro ⟨hm, hlt⟩
      exact absurd (hneg hm) (by omega)
    simp only [ParsedLineSelector.fromRaw, hs, he, exceptBind_ok, hst, h1, h2,
      if_false, if_neg h1, if_neg h2]
  · intro hp
    have hlt : s < e := hpos hp
    have hdm := Nat.div_mul_le_self (e - s) step.natAbs
    refine ⟨?_, Nat.le_add_right _ _, by omega, Nat.add_mul_mod_self_right _ _ _⟩
    simp only [tightenRange, if_neg (by omega : ¬ s = e), if_pos hlt, if_neg ha]
  · intro hm
    have hgt : e < s := hneg hm
    have hdm := Nat.div_mul_le_self (s - e) step.natAbs
    refine ⟨?_, by omega, by omega, ?_⟩
    · simp only [tightenRange, if_neg (by omega : ¬ s = e),
        if_neg (by omega : ¬ s < e), if_neg ha]
    · have hle : (s - e) / step.natAbs * step.natAbs ≤ s := by omega
      obtain ⟨q, hq⟩ : ∃ q, (s - e) / step.natAbs * step.natAbs = q * step.natAbs :=
        ⟨(s - e) / step.natAbs, rfl⟩
      rw [hq]
      rw [hq] at hle
      rw [Nat.mul_comm q step.natAbs] at hle ⊢
      exact Nat.sub_mul_mod hle

theorem c7_step_tightening_witness :
    ParsedLineSelector.fromRaw (.RangeWithStep (some 1) (some 6) (some 2)) 6
      = tightenRange 0 5 2 ∧
    tightenRange 0 5 2 = .ok (.Range 0 4 2) :=
  ⟨(c7_step_tightening (some 1) (some 6) (some 2) 6 0 5 2
      (by decide) (by decide) (by decide) (by decide) (by decide)
      (fun _ => by decide) (fun h => absurd h (by decide))).1,
   by decide⟩

/-! ### The invariant established by normalization (C9) -/

theorem toPositiveOneBased_lt {k : Int} {n l : Nat} (hn : 1 ≤ n)
    (h : toPositiveOneBased k n = .ok l) : l < n := by
  unfold toPositiveOneBased at h
  split at h
  · exact absurd h (by simp)
  · next hgt =>
    split at h
    · next hneg =>
      injection h with h
      have h1 : 1 ≤ k.natAbs := by omega
      omega
    · split at h
      · exact absurd h (by simp)
      · next htn =>
        injection h with h
        omega

theorem resolveStart_lt {a : Option Int} {n s : Nat} (hn : 1 ≤ n)
    (h : resolveStart a n = .ok s) : s < n := by
  unfold resolveStart at h
  match a with
  | some k => exact toPositiveOneBased_lt hn h
  | none =>
    injection h with h
    omega

theorem resolveEnd_lt {b : Option Int} {n e : Nat} (hn : 1 ≤ n)
    (h : resolveEnd b n = .ok e) : e < n := by
  unfold resolveEnd usizePred at h
  rw [if_neg (by omega : ¬ n = 0)] at h
  match b with
  | some k =>
    simp only [Option.map_some, exceptBind_ok] at h
    exact toPositiveOneBased_lt hn h
  | none =>
    simp only [Option.map_none, exceptBind_ok] at h
    injection h with h
    omega

theorem tightenRange_invariant {s e n : Nat} {step : Int}
    {sel : ParsedLineSelector} (hsn : s < n) (hen : e < n)
    (hc1 : ¬ (0 < step ∧ s > e)) (hc2 : ¬ (step < 0 ∧ s < e))
    (h : tightenRange s e step = .ok sel) : NormInvariant sel n := by
  unfold tightenRange at h
  by_cases heq : s = e
  · rw [if_pos heq] at h
    injection h with h
    subst h
    exact hsn
  · rw [if_neg heq] at h
    by_cases hlt : s < e
    · rw [if_pos hlt] at h
      by_cases ha : step.natAbs = 0
      · simp [ha] at h
      · simp only [if_neg ha] at h
        injection h with h
        subst h
        have hstep : step ≠ 0 := fun hz => ha (by simp [hz])
        have hdm := Nat.div_mul_le_self (e - s) step.natAbs
        refine ⟨hstep, hsn, by omega, fun _ => Nat.le_add_right _ _, fun hm => ?_⟩
        exact absurd (And.intro hm hlt) hc2
    · rw [if_neg hlt] at h
      have hgt : e < s := by omega
      by_cases ha : step.natAbs = 0
      · simp [ha] at h
      · simp only [if_neg ha] at h
        injection h with h
        subst h
        have hstep : step ≠ 0 := fun hz => ha (by simp [hz])
        have hdm := Nat.div_mul_le_self (s - e) step.natAbs
        refine ⟨hstep, hsn, by omega, fun hp => ?_, fun _ => by omega⟩
        exact absurd (And.intro hp hgt) hc1

/-- C9 amended: whenever normalization succeeds against `n_lines ≥ 1`, the
result satisfies the (non-strict) normalized-selector invariant: a `Single`
line index is in range; a `Range` has nonzero step, both bounds in range,
`start ≤ end` for a positive step and `start ≥ end` for a negative one. -/
theorem c9_amended_invariant (raw : RawLineSelector) (n : Nat)
    (sel : ParsedLineSelector) (hn : 1 ≤ n)
    (h : ParsedLineSelector.fromRaw raw n = .ok sel) : NormInvariant sel n := by
  match raw with
  | .Single k =>
    simp only [ParsedLineSelector.fromRaw] at h
    rcases hk : toPositiveOneBased k n with er | l <;> rw [hk] at h
    · exact absurd h (by simp [exceptBind_error])
    · rw [exceptBind_ok] at h
      injection h with h
      subst h
      exact toPositiveOneBased_lt hn hk
  | .Range a b =>
    simp only [ParsedLineSelector.fromRaw] at h
    rcases hs : resolveStart a n with er | s <;> rw [hs] at h
    · exact absurd h (by simp [exceptBind_error])
    · rw [exceptBind_ok] at h
      rcases he : resolveEnd b n with er | e <;> rw [he] at h
      · exact absurd h (by simp [exceptBind_error])
      · rw [exceptBind_ok] at h
        have hsn := resolveStart_lt hn hs
        have hen := resolveEnd_lt hn he
        split at h
        · exact absurd h (by simp [throw, throwThe, MonadExceptOf.throw])
        · split at h
          · injection h with h
            subst h
            exact hsn
          · injection h with h
            subst h
            exact ⟨one_ne_zero, hsn, hen, fun _ => by omega, fun hm => absurd hm (by omega)⟩
  | .RangeWithStep a b sp =>
    simp only [ParsedLineSelector.fromRaw] at h
    rcases hs : resolveStart a n with er | s <;> rw [hs] at h
    · exact absurd h (by simp [exceptBind_error])
    · rw [exceptBind_ok] at h
      rcases he : resolveEnd b n with er | e <;> rw [he] at h
      · exact absurd h (by simp [exceptBind_error])
      · rw [exceptBind_ok] at h
        have hsn := resolveStart_lt hn hs
        have hen := resolveEnd_lt hn he
        split at h
        · exact absurd h (by simp [throw, throwThe, MonadExceptOf.throw])
        · next hc1 =>
          split at h
          · exact absurd h (by simp [throw, throwThe, MonadExceptOf.throw])
          · next hc2 =>
            exact tightenRange_invariant hsn hen hc1 hc2 h

theorem c9_amended_invariant_witness :
    (1 : Nat) ≤ 2 ∧
    ParsedLineSelector.fromRaw (.RangeWithStep (some 1) (some 2) (some 5)) 2
      = .ok (.Range 0 0 5) ∧
    NormInvariant (.Range 0 0 5) 2 :=
  ⟨by decide, by decide,
   c9_amended_invariant (.RangeWithStep (some 1) (some 2) (some 5)) 2
     (.Range 0 0 5) (by decide) (by decide)⟩

/-! ### The single-selector round trip (C8) -/

theorem mapM_singleton {α β : Type} (g : α → Except RunError β) (a : α) :
    [a].mapM g = (g a).map (fun b => [b]) := by
  cases hg : g a <;> simp [List.mapM, List.mapM.loop, hg, Except.map]

theorem getD_mem_dropLast {L : List (List Nat)} {i : Nat} (h : i < L.length - 1) :
    L.getD i [] ∈ L.dropLast := by
  have hlen : i < L.dropLast.length := by
    rw [List.length_dropLast]; omega
  have hlt : i < L.length := by omega
  rw [List.getD_eq_getElem _ _ hlt]
  have := List.getElem_dropLast L i hlen
  rw [← this]
  exact List.getElem_mem _
  
theorem getD_last_eq_getLastD {L : List (List Nat)} (h : L ≠ []) :
    L.getD (L.length - 1) [] = L.getLastD [] := by
  have hpos : 0 < L.length := List.length_pos.2 h
  have hlen : L.length - 1 < L.length := by omega
  rw [List.getD_eq_getElem _ _ hlen, List.getLastD_eq_getLast?,
    List.getLast?_eq_getElem?]
  simp [List.getElem?_eq_getElem hlen]

theorem exceptBindEq_ok {α β : Type} (a : α) (g : α → Except RunError β) :
    Except.bind (Except.ok a) g = g a := rfl

theorem exceptBindEq_error {α β : Type} (e : RunError)
    (g : α → Except RunError β) :
    Except.bind (Except.error e : Except RunError α) g = Except.error e := rfl

theorem exceptMapEq_ok {α β : Type} (a : α) (g : α → β) :
    Except.map g (Except.ok a : Except RunError α) = Except.ok (g a) := rfl

theorem exceptPure {α : Type} (a : α) :
    (pure a : Except RunError α) = Except.ok a := rfl

theorem mainNLines_false (f : List Nat) :
    mainNLines false f = countLines (f.take 128) + countLines (f.drop 128) := rfl

theorem mainNLines_ge {f : List Nat} :
    (splitLines f).length ≤ mainNLines false f := by
  have h1 := splitLines_append_length_le (f.take 128) (f.drop 128)
  rw [List.take_append_drop] at h1
  rw [mainNLines_false, countLines_eq, countLines_eq]
  exact h1

/-- C8: for every non-empty file and any selector token that parses as the
positive single line `k` with `1 ≤ k ≤ n_lines`, plain-mode stdout is
exactly the bytes of the file's `k`-th physical line (second conjunct: the
physical lines concatenate back to the file).  The line carries its
trailing newline whenever it is not the file's last line (third conjunct),
and the last line carries one exactly when the file ends with one (fourth
conjunct). -/
theorem c8_single_selector_round_trip (f : List Nat) (s : String) (k : Int)
    (hf : f ≠ []) (hp : RawLineSelector.fromStr s = .ok (.Single k))
    (hk1 : 1 ≤ k) (hkn : k.toNat ≤ (splitLines f).length) :
    runMain false true false f [s] = .ok ((splitLines f).getD (k.toNat - 1) []) ∧
    (splitLines f).foldr (· ++ ·) [] = f ∧
    (k.toNat < (splitLines f).length →
      ((splitLines f).getD (k.toNat - 1) []).getLast? = some nlByte) ∧
    (k.toNat = (splitLines f).length →
      (((splitLines f).getD (k.toNat - 1) []).getLast? = some nlByte ↔
        f.getLast? = some nlByte)) := by
  have hempty : f.isEmpty = false := by
    simpa [List.isEmpty_iff] using hf
  set m := k.toNat - 1 with hm
  have hklen : k.toNat ≤ (splitLines f).length := hkn
  have hmlt : m < (splitLines f).length := by omega
  have hnl := @mainNLines_ge f
  -- the normalization of the raw selector
  have htp : toPositiveOneBased k (mainNLines false f) = .ok m := by
    have hngt : ¬ k.natAbs > mainNLines false f := by omega
    have hneg : ¬ k < 0 := by omega
    have htn : ¬ k.toNat = 0 := by omega
    simp [toPositiveOneBased, hngt, hneg, htn]
  have hfr : ParsedLineSelector.fromRaw (.Single k) (mainNLines false f)
      = .ok (.Single m) := by
    simp only [ParsedLineSelector.fromRaw, htp, exceptBind_ok]
    rfl
  -- the single read of the fill pass
  rcases hrd : LineReader.readSpecificLine ⟨f, 0⟩ m with ⟨buf, rd⟩
  have hbuf : buf = (splitLines f).getD m [] := by
    have := @readSpecificLine_fresh f m hmlt
    rw [hrd] at this
    exact this
  have h1 : [s].mapM RawLineSelector.fromStr = .ok [.Single k] := by
    rw [mapM_singleton, hp]; rfl
  have h2 : [RawLineSelector.Single k].mapM
      (fun r => ParsedLineSelector.fromRaw r (mainNLines false f)) = .ok [.Single m] := by
    rw [mapM_singleton, hfr]; rfl
  have hfill : fillAll f [ParsedLineSelector.Single m] =
      ⟨[(m, buf)], rd, [m]⟩ := by
    simp [fillAll, fillSelector, fillLineNums, fillLine, cacheLookup, hrd]
  have hrun : runMain false true false f [s] = .ok buf := by
    rw [runMain, h1, exceptBindEq_ok]
    simp only [Bool.not_false, Bool.true_and, hempty, Bool.false_eq_true,
      if_false]
    rw [h2, exceptBindEq_ok]
    simp only [sortSelectors, List.foldr_cons, List.foldr_nil, insertByLower,
      hfill, List.zip_cons_cons, List.zip_nil_right]
    rw [mapM_singleton]
    simp [emitSelector, emitLookup, cacheLookup, Except.map]
  refine ⟨?_, splitLines_join f, ?_, ?_⟩
  · rw [hrun, hbuf]
  · intro hlt
    exact splitLines_dropLast_newline (getD_mem_dropLast (by omega))
  · intro heq
    have hLne : splitLines f ≠ [] := fun hh => hf ((splitLines_eq_nil_iff f).1 hh)
    have : m = (splitLines f).length - 1 := by omega
    rw [this, getD_last_eq_getLastD hLne, splitLines_getLast hf]

theorem c8_single_selector_round_trip_witness :
    strBytes "one\ntwo\nthree" ≠ [] ∧
    runMain false true false (strBytes "one\ntwo\nthree") ["2"]
      = .ok ((splitLines (strBytes "one\ntwo\nthree")).getD ((2 : Int).toNat - 1) []) ∧
    (splitLines (strBytes "one\ntwo\nthree")).getD ((2 : Int).toNat - 1) []
      = strBytes "two\n" :=
  ⟨by decide,
   (c8_single_selector_round_trip (strBytes "one\ntwo\nthree") "2" 2
      (by decide) (by decide) (by decide) (by decide)).1,
   by decide⟩

/-! ### Decimal display / parse round trip (C10) -/

theorem digitCh_isDigit (d : Nat) : isDigitCh (digitCh d) = true := by
  rcases d with _ | _ | _ | _ | _ | _ | _ | _ | _ | d'
  all_goals first
    | decide
    | exact (by decide : isDigitCh '9' = true)

theorem digitCh_val {d : Nat} (h : d < 10) : (digitCh d).toNat - 48 = d := by
  interval_cases d <;> decide

theorem natOfDigits_append_one (xs : List Char) (c : Char) :
    natOfDigits (xs ++ [c]) = natOfDigits xs * 10 + (c.toNat - 48) := by
  simp [natOfDigits, List.foldl_append]

theorem natReprAux_spec : ∀ (fuel n : Nat), n < fuel →
    natReprAux fuel n ≠ [] ∧ (natReprAux fuel n).all isDigitCh = true ∧
    natOfDigits (natReprAux fuel n) = n := by
  intro fuel
  induction fuel with
  | zero => intro n h; omega
  | succ fuel ih =>
    intro n h
    by_cases hn : n < 10
    · refine ⟨by simp [natReprAux, hn], ?_, ?_⟩
      · simp [natReprAux, hn, digitCh_isDigit]
      · simp [natReprAux, hn, natOfDigits, digitCh_val hn]
    · have hge : 10 ≤ n := by omega
      have hdiv : n / 10 < n := Nat.div_lt_self (by omega) (by omega)
      have hfuel : n / 10 < fuel := by omega
      obtain ⟨hne, hall, hval⟩ := ih (n / 10) hfuel
      simp only [natReprAux, if_neg hn]
      refine ⟨by simp, ?_, ?_⟩
      · rw [List.all_append, hall]
        simp [digitCh_isDigit]
      · rw [natOfDigits_append_one, hval, digitCh_val (Nat.mod_lt _ (by omega))]
        omega

theorem natRepr_spec (n : Nat) :
    natRepr n ≠ [] ∧ (natRepr n).all isDigitCh = true ∧
    natOfDigits (natRepr n) = n :=
  natReprAux_spec (n + 1) n (Nat.lt_succ_self n)

theorem isDigit_not_special {c : Char} (h : isDigitCh c = true) :
    c ≠ ':' ∧ c ≠ '-' ∧ c ≠ '+' ∧ isWsp c = false := by
  simp only [isDigitCh, Bool.and_eq_true, decide_eq_true_eq] at h
  refine ⟨?_, ?_, ?_, ?_⟩
  · rintro rfl; revert h; decide
  · rintro rfl; revert h; decide
  · rintro rfl; revert h; decide
  · have h1 : c ≠ ' ' := by rintro rfl; revert h; decide
    have h2 : c ≠ '\t' := by rintro rfl; revert h; decide
    have h3 : c ≠ '\n' := by rintro rfl; revert h; decide
    have h4 : c ≠ '\r' := by rintro rfl; revert h; decide
    simp [isWsp, h1, h2, h3, h4]

theorem natRepr_mem_digit {n : Nat} {c : Char} (h : c ∈ natRepr n) :
    isDigitCh c = true := by
  have := (natRepr_spec n).2.1
  rw [List.all_eq_true] at this
  exact this c h

theorem intRepr_ne_nil (v : Int) : intRepr v ≠ [] := by
  unfold intRepr
  split
  · simp
  · exact (natRepr_spec v.natAbs).1

theorem intRepr_no_colon {v : Int} {c : Char} (h : c ∈ intRepr v) : c ≠ ':' := by
  unfold intRepr at h
  split at h
  · rcases List.mem_cons.1 h with rfl | h'
    · decide
    · exact (isDigit_not_special (natRepr_mem_digit h')).1
  · exact (isDigit_not_special (natRepr_mem_digit h)).1

theorem intRepr_no_wsp {v : Int} {c : Char} (h : c ∈ intRepr v) :
    isWsp c = false := by
  unfold intRepr at h
  split at h
  · rcases List.mem_cons.1 h with rfl | h'
    · decide
    · exact (isDigit_not_special (natRepr_mem_digit h')).2.2.2
  · exact (isDigit_not_special (natRepr_mem_digit h)).2.2.2

theorem parseIsize_pos_digits {cs : List Char} (hne : cs ≠ [])
    (hall : cs.all isDigitCh = true) (hbound : natOfDigits cs ≤ 2 ^ 63 - 1) :
    parseIsize cs = some ((natOfDigits cs : Int)) := by
  rcases cs with _ | ⟨c, rest⟩
  · exact absurd rfl hne
  · have hc : isDigitCh c = true := by
      rw [List.all_cons, Bool.and_eq_true] at hall
      exact hall.1
    obtain ⟨-, hcm, hcp, -⟩ := isDigit_not_special hc
    simp only [parseIsize, if_neg hcm, if_neg hcp]
    simp only [List.isEmpty_cons, Bool.false_eq_true, if_false, hall, if_true]
    rw [if_pos (by simpa using hbound)]

theorem parseIsize_neg_digits {cs : List Char} (hne : cs ≠ [])
    (hall : cs.all isDigitCh = true) (hbound : natOfDigits cs ≤ 2 ^ 63) :
    parseIsize ('-' :: cs) = some (-(natOfDigits cs : Int)) := by
  have hie : cs.isEmpty = false := by simpa [List.isEmpty_iff] using hne
  simp only [parseIsize, if_pos rfl]
  simp only [hie, Bool.false_eq_true, if_false, hall, if_true]
  rw [if_pos (by simpa using hbound)]

theorem parseIsize_intRepr {v : Int} (hlo : -(2 ^ 63) ≤ v)
    (hhi : v ≤ 2 ^ 63 - 1) : parseIsize (intRepr v) = some v := by
  obtain ⟨hne, hall, hval⟩ := natRepr_spec v.natAbs
  by_cases hneg : v < 0
  · have hrepr : intRepr v = '-' :: natRepr v.natAbs := by simp [intRepr, hneg]
    rw [hrepr, parseIsize_neg_digits hne hall (by rw [hval]; omega), hval]
    have hcast : (-(v.natAbs : Int)) = v := by omega
    rw [hcast]
  · have hrepr : intRepr v = natRepr v.natAbs := by simp [intRepr, hneg]
    rw [hrepr, parseIsize_pos_digits hne hall (by rw [hval]; omega), hval]
    have hcast : ((v.natAbs : Int)) = v := by omega
    rw [hcast]

theorem parseNumPart_optRepr {o : Option Int} (h : OptOkComp o) :
    parseNumPart (optRepr o) = .ok o := by
  match o with
  | none => rfl
  | some v =>
    obtain ⟨hnz, hlo, hhi⟩ := h
    simp only [optRepr, parseNumPart, List.isEmpty_iff, intRepr_ne_nil v,
      if_neg (intRepr_ne_nil v), parseIsize_intRepr hlo hhi, if_neg hnz]
    simp

theorem splitFirstColon_none {cs : List Char} (h : ∀ c ∈ cs, c ≠ ':') :
    splitFirstColon cs = none := by
  induction cs with
  | nil => rfl
  | cons c rest ih =>
    have hc : c ≠ ':' := h c (by simp)
    simp only [splitFirstColon, if_neg hc,
      ih (fun c' hc' => h c' (List.mem_cons_of_mem _ hc'))]

theorem splitFirstColon_append {xs ys : List Char} (h : ∀ c ∈ xs, c ≠ ':') :
    splitFirstColon (xs ++ ':' :: ys) = some (xs, ys) := by
  induction xs with
  | nil => simp [splitFirstColon]
  | cons c rest ih =>
    have hc : c ≠ ':' := h c (by simp)
    simp only [List.cons_append, splitFirstColon, if_neg hc, List.append_eq,
      ih (fun c' hc' => h c' (List.mem_cons_of_mem _ hc'))]

theorem dropWhile_all_false {p : Char → Bool} {cs : List Char}
    (h : ∀ c ∈ cs, p c = false) : cs.dropWhile p = cs := by
  cases cs with
  | nil => rfl
  | cons c rest =>
    rw [List.dropWhile_cons, h c (by simp)]
    simp

theorem trimChars_eq_self {cs : List Char}
    (h : ∀ c ∈ cs, isWsp c = false) : trimChars cs = cs := by
  unfold trimChars
  rw [dropWhile_all_false h,
    dropWhile_all_false (fun c hc => h c (List.mem_reverse.1 hc)),
    List.reverse_reverse]

theorem optRepr_no_colon {o : Option Int} {c : Char} (h : c ∈ optRepr o) :
    c ≠ ':' := by
  match o with
  | none => simp [optRepr] at h
  | some v => exact intRepr_no_colon h

theorem optRepr_no_wsp {o : Option Int} {c : Char} (h : c ∈ optRepr o) :
    isWsp c = false := by
  match o with
  | none => simp [optRepr] at h
  | some v => exact intRepr_no_wsp h

theorem display_range_eq (a b : Option Int) :
    RawLineSelector.display (.Range a b) = optRepr a ++ ':' :: optRepr b := by
  cases a <;> cases b <;> rfl

theorem display_rws_eq (a b c : Option Int) :
    RawLineSelector.display (.RangeWithStep a b c) =
      optRepr a ++ ':' :: (optRepr b ++ ':' :: optRepr c) := by
  cases a <;> cases b <;> cases c <;> simp [RawLineSelector.display, optRepr]

theorem append_colon_no_wsp {xs ys : List Char}
    (hx : ∀ c ∈ xs, isWsp c = false) (hy : ∀ c ∈ ys, isWsp c = false) :
    ∀ c ∈ xs ++ ':' :: ys, isWsp c = false := by
  intro c hc
  rcases List.mem_append.1 hc with h | h
  · exact hx c h
  · rcases List.mem_cons.1 h with rfl | h
    · decide
    · exact hy c h

/-- C10: re-parsing the `Display` rendering of a raw selector returns the
original value, whenever every numeric component is nonzero (and, as the
`isize` component type guarantees in the source, representable). -/
theorem c10_display_parse_round_trip (raw : RawLineSelector)
    (hok : RawComponentsOk raw) :
    RawLineSelector.fromStr (String.mk raw.display) = .ok raw := by
  match raw with
  | .Single v =>
    have hiw : ∀ c ∈ intRepr v, isWsp c = false := fun c hc => intRepr_no_wsp hc
    have htrim : trimChars (intRepr v) = intRepr v := trimChars_eq_self hiw
    have hie : (intRepr v).isEmpty = false := by
      simpa [List.isEmpty_iff] using intRepr_ne_nil v
    have hsp : splitn3 (intRepr v) = [intRepr v] := by
      unfold splitn3
      rw [splitFirstColon_none (fun c hc => intRepr_no_colon hc)]
    have hpn : parseNumPart (intRepr v) = .ok (some v) :=
      @parseNumPart_optRepr (some v) hok
    show RawLineSelector.fromStrChars (intRepr v) = .ok (.Single v)
    simp only [RawLineSelector.fromStrChars, htrim, hie, Bool.false_eq_true,
      if_false, hsp, hpn]
  | .Range a b =>
    obtain ⟨ha, hb⟩ := hok
    have hwa : ∀ c ∈ optRepr a, isWsp c = false := fun c hc => optRepr_no_wsp hc
    have hwb : ∀ c ∈ optRepr b, isWsp c = false := fun c hc => optRepr_no_wsp hc
    have hcs := append_colon_no_wsp hwa hwb
    have htrim := trimChars_eq_self hcs
    have hne : optRepr a ++ ':' :: optRepr b ≠ [] := by simp
    have hie : (optRepr a ++ ':' :: optRepr b).isEmpty = false := by
      simpa [List.isEmpty_iff] using hne
    have hsp : splitn3 (optRepr a ++ ':' :: optRepr b) = [optRepr a, optRepr b] := by
      have h1 : splitFirstColon (optRepr a ++ ':' :: optRepr b)
          = some (optRepr a, optRepr b) :=
        splitFirstColon_append (fun c hc => optRepr_no_colon hc)
      have h2 : splitFirstColon (optRepr b) = none :=
        splitFirstColon_none (fun c hc => optRepr_no_colon hc)
      simp only [splitn3, h1, h2]
    show RawLineSelector.fromStrChars (RawLineSelector.display (.Range a b)) = _
    rw [display_range_eq]
    simp only [RawLineSelector.fromStrChars, htrim, hie, Bool.false_eq_true,
      if_false, hsp, parseNumPart_optRepr ha, parseNumPart_optRepr hb,
      exceptBind_ok]
  | .RangeWithStep a b c =>
    obtain ⟨ha, hb, hc⟩ := hok
    have hwa : ∀ ch ∈ optRepr a, isWsp ch = false := fun ch hch => optRepr_no_wsp hch
    have hwb : ∀ ch ∈ optRepr b, isWsp ch = false := fun ch hch => optRepr_no_wsp hch
    have hwc : ∀ ch ∈ optRepr c, isWsp ch = false := fun ch hch => optRepr_no_wsp hch
    have hcs := append_colon_no_wsp hwa (append_colon_no_wsp hwb hwc)
    have htrim := trimChars_eq_self hcs
    have hne : optRepr a ++ ':' :: (optRepr b ++ ':' :: optRepr c) ≠ [] := by simp
    have hie : (optRepr a ++ ':' :: (optRepr b ++ ':' :: optRepr c)).isEmpty = false := by
      simpa [List.isEmpty_iff] using hne
    have hsp : splitn3 (optRepr a ++ ':' :: (optRepr b ++ ':' :: optRepr c))
        = [optRepr a, optRepr b, optRepr c] := by
      have h1 : splitFirstColon (optRepr a ++ ':' :: (optRepr b ++ ':' :: optRepr c))
          = some (optRepr a, optRepr b ++ ':' :: optRepr c) :=
        splitFirstColon_append (fun ch hch => optRepr_no_colon hch)
      have h2 : splitFirstColon (optRepr b ++ ':' :: optRepr c)
          = some (optRepr b, optRepr c) :=
        splitFirstColon_append (fun ch hch => optRepr_no_colon hch)
      simp only [splitn3, h1, h2]
    show RawLineSelector.fromStrChars
      (RawLineSelector.display (.RangeWithStep a b c)) = _
    rw [display_rws_eq]
    simp only [RawLineSelector.fromStrChars, htrim, hie, Bool.false_eq_true,
      if_false, hsp, parseNumPart_optRepr ha, parseNumPart_optRepr hb,
      parseNumPart_optRepr hc, exceptBind_ok]

theorem c10_display_parse_round_trip_witness :
    RawComponentsOk (.RangeWithStep (some (-3)) none (some 2)) ∧
    RawLineSelector.fromStr
        (String.mk (RawLineSelector.display (.RangeWithStep (some (-3)) none (some 2))))
      = .ok (.RangeWithStep (some (-3)) none (some 2)) :=
  ⟨⟨⟨by decide, by decide, by decide⟩, trivial, ⟨by decide, by decide, by decide⟩⟩,
   c10_display_parse_round_trip (.RangeWithStep (some (-3)) none (some 2))
     ⟨⟨by decide, by decide, by decide⟩, trivial, ⟨by decide, by decide, by decide⟩⟩⟩
